import Mathlib

/-!
Verification of the Membercoin interest-accrual and proof-of-work kernel.

The definitions below are a shallow embedding of the consensus-critical code in
`src/src/primitives/transaction.cpp`, `src/src/primitives/block.cpp` and
`src/src/amount.h`.  Machine integers are modelled as `Nat` (for the unsigned
64-bit rate table and the 256-bit `arith_uint256` intermediates, with explicit
`% 2 ^ 64` / `% 2 ^ 256` where the machine arithmetic can wrap) and as `Int`
(for `CAmount = int64_t` and the `int` block heights; signed overflow is
undefined behaviour in the source, and every theorem below stays inside the
ranges where the C++ arithmetic is exact).
-/

namespace Membercoin

/-- `COIN` from `src/src/amount.h`: `static const CAmount COIN = 100000000`. -/
def COIN : Int := 100000000

/-- `MAX_MONEY` from `src/src/amount.h`:
`static const CAmount MAX_MONEY = 1000000000 * COIN`. -/
def MAX_MONEY : Int := 1000000000 * COIN

/-- `ONEDAY` from `src/src/primitives/transaction.cpp`: `static int ONEDAY=1108`. -/
def ONEDAY : Int := 1108

/-- `MAXINTERESTPERIOD` from `src/src/primitives/transaction.cpp`:
`static int MAXINTERESTPERIOD=ONEDAY*365`. -/
def MAXINTERESTPERIOD : Int := ONEDAY * 365

/-- The startup rate table from `initRateTable` in
`src/src/primitives/transaction.cpp`:

    rateTable[0]=1;  rateTable[0]=rateTable[0]<<62;
    for(int i=1;i<MAXINTERESTPERIOD+1;i++)
        rateTable[i]=rateTable[i-1]+(rateTable[i-1]>>22);

Entries are `uint64_t`, so each step is reduced `% 2 ^ 64` (the bound proofs
below show the reduction never fires for indices up to `MAXINTERESTPERIOD`).
The C++ array has `1108*365+1` entries; the code only ever reads indices
`0 ≤ i ≤ 1108*365`, which is the range our theorems quantify over. -/
def rateTable : Nat → Nat
  | 0 => 1 <<< 62
  | i + 1 => (rateTable i + rateTable i >>> 22) % 2 ^ 64

lemma rateTable_zero : rateTable 0 = 2 ^ 62 := by
  decide

set_option exponentiation.threshold 10000000 in
set_option maxRecDepth 10000 in
/-- Key closed-form fact powering the overflow analysis: per-block compounding
at `1 + 2⁻²²` stays below doubling over a full year of `1108 * 365 = 404420`
blocks. -/
lemma year_growth_lt_two :
    (2 : Nat) ^ 62 * (2 ^ 22 + 1) ^ 404420 < 2 ^ 63 * 2 ^ (22 * 404420) := by
  decide

lemma pow_ratio_le (i : Nat) (h : i ≤ 404420) :
    (2 ^ 22 + 1 : Nat) ^ i * 2 ^ (22 * 404420) ≤ 2 ^ (22 * i) * (2 ^ 22 + 1) ^ 404420 := by
  obtain ⟨k, hk⟩ := Nat.le.dest h
  rw [← hk]
  have h2k : (2 : Nat) ^ (22 * k) ≤ (2 ^ 22 + 1) ^ k := by
    calc (2 : Nat) ^ (22 * k) = (2 ^ 22) ^ k := by rw [pow_mul]
    _ ≤ (2 ^ 22 + 1) ^ k := Nat.pow_le_pow_left (Nat.le_succ _) k
  calc (2 ^ 22 + 1 : Nat) ^ i * 2 ^ (22 * (i + k))
      = ((2 ^ 22 + 1) ^ i * 2 ^ (22 * i)) * 2 ^ (22 * k) := by
        rw [Nat.mul_add, pow_add]; ring
    _ ≤ ((2 ^ 22 + 1) ^ i * 2 ^ (22 * i)) * (2 ^ 22 + 1) ^ k :=
        Nat.mul_le_mul_left _ h2k
    _ = 2 ^ (22 * i) * ((2 ^ 22 + 1) ^ i * (2 ^ 22 + 1) ^ k) := by ring
    _ = 2 ^ (22 * i) * (2 ^ 22 + 1) ^ (i + k) := by rw [pow_add]

lemma rateTable_lt_of_bound (n : Nat) (hn : n ≤ 404420)
    (hub : rateTable n * 2 ^ (22 * n) ≤ 2 ^ 62 * (2 ^ 22 + 1) ^ n) :
    rateTable n < 2 ^ 63 := by
  by_contra hge
  push_neg at hge
  have hratio := pow_ratio_le n hn
  have hyear := year_growth_lt_two
  have hApos : 0 < (2 : Nat) ^ (22 * n) := Nat.pos_pow_of_pos _ (by norm_num)
  -- Abstract the very large powers into variables so that no proof term (in
  -- particular none produced by `ring`) ever holds their evaluated numerals.
  generalize hA : (2 : Nat) ^ (22 * n) = A at hub hratio hApos
  generalize hB : (2 : Nat) ^ (22 * 404420) = B at hratio hyear
  generalize hP : ((2 : Nat) ^ 22 + 1) ^ n = P at hub hratio
  generalize hQ : ((2 : Nat) ^ 22 + 1) ^ 404420 = Q at hratio hyear
  set R : Nat := rateTable n with hR
  have hchain : (2 : Nat) ^ 63 * (A * B) < 2 ^ 63 * (A * B) := by
    calc (2 : Nat) ^ 63 * (A * B)
        = 2 ^ 63 * A * B := by ring
      _ ≤ R * A * B := Nat.mul_le_mul_right _ (Nat.mul_le_mul_right _ hge)
      _ ≤ 2 ^ 62 * P * B := Nat.mul_le_mul_right _ hub
      _ = 2 ^ 62 * (P * B) := by ring
      _ ≤ 2 ^ 62 * (A * Q) := Nat.mul_le_mul_left _ hratio
      _ = A * (2 ^ 62 * Q) := by ring
      _ < A * (2 ^ 63 * B) := mul_lt_mul_of_pos_left hyear hApos
      _ = 2 ^ 63 * (A * B) := by ring
  exact absurd hchain (lt_irrefl _)

/-- Simultaneous invariant of the rate-table recurrence on the indices the code
uses: every entry is at least the base scale `2 ^ 62`, and the growth is
bounded by the exact rational compounding factor `(1 + 2⁻²²)` per step. -/
lemma rateTable_invariant :
    ∀ i, i ≤ 404420 →
      2 ^ 62 ≤ rateTable i ∧ rateTable i * 2 ^ (22 * i) ≤ 2 ^ 62 * (2 ^ 22 + 1) ^ i := by
  intro i
  induction i with
  | zero =>
    intro _
    refine ⟨le_of_eq rateTable_zero.symm, ?_⟩
    simp [rateTable_zero]
  | succ n ih =>
    intro hn1
    have hn : n ≤ 404420 := Nat.le_of_succ_le hn1
    obtain ⟨hlb, hub⟩ := ih hn
    have hlt : rateTable n < 2 ^ 63 := rateTable_lt_of_bound n hn hub
    have hshift : rateTable n >>> 22 = rateTable n / 2 ^ 22 := Nat.shiftRight_eq_div_pow _ _
    have hnowrap : rateTable n + rateTable n >>> 22 < 2 ^ 64 := by
      have hd : rateTable n / 2 ^ 22 ≤ rateTable n := Nat.div_le_self _ _
      rw [hshift]
      calc rateTable n + rateTable n / 2 ^ 22 ≤ rateTable n + rateTable n :=
            Nat.add_le_add_left hd _
        _ < 2 ^ 63 + 2 ^ 63 := by omega
        _ = 2 ^ 64 := by norm_num
    have heq : rateTable (n + 1) = rateTable n + rateTable n >>> 22 := by
      show (rateTable n + rateTable n >>> 22) % 2 ^ 64 = _
      exact Nat.mod_eq_of_lt hnowrap
    constructor
    · rw [heq]
      exact le_trans hlb (Nat.le_add_right _ _)
    · rw [heq, hshift]
      have hdmul : rateTable n / 2 ^ 22 * 2 ^ 22 ≤ rateTable n := Nat.div_mul_le_self _ _
      calc (rateTable n + rateTable n / 2 ^ 22) * 2 ^ (22 * (n + 1))
          = (rateTable n * 2 ^ 22 + rateTable n / 2 ^ 22 * 2 ^ 22) * 2 ^ (22 * n) := by
            rw [Nat.mul_add 22 n 1]
            rw [pow_add]
            ring
        _ ≤ (rateTable n * 2 ^ 22 + rateTable n) * 2 ^ (22 * n) := by
            apply Nat.mul_le_mul_right
            exact Nat.add_le_add_left hdmul _
        _ = (rateTable n * 2 ^ (22 * n)) * (2 ^ 22 + 1) := by ring
        _ ≤ (2 ^ 62 * (2 ^ 22 + 1) ^ n) * (2 ^ 22 + 1) := Nat.mul_le_mul_right _ hub
        _ = 2 ^ 62 * (2 ^ 22 + 1) ^ (n + 1) := by rw [pow_succ]; ring

lemma rateTable_lb (i : Nat) (h : i ≤ 404420) : 2 ^ 62 ≤ rateTable i :=
  (rateTable_invariant i h).1

lemma rateTable_ub (i : Nat) (h : i ≤ 404420) : rateTable i < 2 ^ 63 :=
  rateTable_lt_of_bound i h (rateTable_invariant i h).2

/-- On the in-range indices the `uint64` recurrence is exact: no `% 2 ^ 64`
reduction ever fires. -/
lemma rateTable_step (i : Nat) (h : i < 404420) :
    rateTable (i + 1) = rateTable i + rateTable i >>> 22 := by
  have hlt : rateTable i < 2 ^ 63 := rateTable_ub i (Nat.le_of_lt h)
  have hshift : rateTable i >>> 22 = rateTable i / 2 ^ 22 := Nat.shiftRight_eq_div_pow _ _
  have hnowrap : rateTable i + rateTable i >>> 22 < 2 ^ 64 := by
    have hd : rateTable i / 2 ^ 22 ≤ rateTable i := Nat.div_le_self _ _
    rw [hshift]
    omega
  show (rateTable i + rateTable i >>> 22) % 2 ^ 64 = _
  exact Nat.mod_eq_of_lt hnowrap

lemma rateTable_lt_succ (i : Nat) (h : i < 404420) :
    rateTable i < rateTable (i + 1) := by
  rw [rateTable_step i h, Nat.shiftRight_eq_div_pow]
  have hlb : 2 ^ 62 ≤ rateTable i := rateTable_lb i (Nat.le_of_lt h)
  have hpos : 0 < rateTable i / 2 ^ 22 := by
    apply Nat.div_pos _ (by norm_num)
    calc (2 : Nat) ^ 22 ≤ 2 ^ 62 := Nat.pow_le_pow_right (by norm_num) (by norm_num)
      _ ≤ rateTable i := hlb
  omega

lemma rateTable_mono_add : ∀ (k i : Nat), i + k ≤ 404420 →
    rateTable i ≤ rateTable (i + k) := by
  intro k
  induction k with
  | zero => intro i _; exact Nat.le_refl _
  | succ n ih =>
    intro i h
    have h1 : i + n ≤ 404420 := by omega
    have h2 : i + n < 404420 := by omega
    calc rateTable i ≤ rateTable (i + n) := ih i h1
      _ ≤ rateTable (i + n + 1) := Nat.le_of_lt (rateTable_lt_succ _ h2)
      _ = rateTable (i + (n + 1)) := by rw [Nat.add_assoc]

lemma rateTable_mono (i j : Nat) (hij : i ≤ j) (hj : j ≤ 404420) :
    rateTable i ≤ rateTable j := by
  obtain ⟨k, rfl⟩ := Nat.le.dest hij
  exact rateTable_mono_add k i hj

/-- The `uint64_t` value obtained from a `CAmount` (`int64_t`) by the implicit
integral conversion C++ applies when constructing `arith_uint256(theAmount)`:
reduction modulo `2 ^ 64`. -/
def toUInt64Nat (x : Int) : Nat := (x % (2 ^ 64 : Int)).toNat

/-- The `CAmount` (`int64_t`) obtained from a `uint64_t` bit pattern, i.e. the
reading of `n % 2 ^ 64` as a signed 64-bit two-complement value. -/
def int64OfNat (n : Nat) : Int :=
  if n % 2 ^ 64 < 2 ^ 63 then ((n % 2 ^ 64 : Nat) : Int)
  else ((n % 2 ^ 64 : Nat) : Int) - 2 ^ 64

/-- `getRateForAmount` from `src/src/primitives/transaction.cpp`:

    const arith_uint256 amount256=arith_uint256(theAmount);
    const arith_uint256 rate256=arith_uint256(rateTable[periods]);
    const arith_uint256 rate0256=arith_uint256(rateTable[0]);
    const arith_uint256 product=amount256*rate256;
    const arith_uint256 result=product/rate0256;
    return result.GetLow64()-theAmount;

The 256-bit product is reduced `% 2 ^ 256` (wrapping `arith_uint256` multiply),
`GetLow64` is `% 2 ^ 64`, and the final subtraction is the C++ `uint64_t`
subtraction `result.GetLow64() - (uint64_t)theAmount` whose value is then
converted back to `CAmount`.  `periods` is a C++ `int` used as an array index;
the callers only pass `0 ≤ periods ≤ MAXINTERESTPERIOD` (a negative index would
be undefined behaviour), which `Int.toNat` reflects. -/
def getRateForAmount (periods : Int) (theAmount : Int) : Int :=
  let amount256 : Nat := toUInt64Nat theAmount
  let rate256 : Nat := rateTable periods.toNat
  let rate0256 : Nat := rateTable 0
  let product : Nat := amount256 * rate256 % 2 ^ 256
  let result : Nat := product / rate0256
  int64OfNat (result % 2 ^ 64 + (2 ^ 64 - toUInt64Nat theAmount))

/-- `GetInterest` from `src/src/primitives/transaction.cpp`:

    if(outputBlockHeight<0 || valuationHeight<0 || valuationHeight<outputBlockHeight){
        return nValue;
    }
    int blocks=std::min(MAXINTERESTPERIOD,valuationHeight-outputBlockHeight);
    CAmount standardInterest=getRateForAmount(blocks, nValue);
    return nValue+standardInterest;

The final `int64_t` addition is modelled as exact `Int` addition; inside the
ranges our theorems quantify over it never overflows. -/
def GetInterest (nValue : Int) (outputBlockHeight : Int) (valuationHeight : Int) : Int :=
  if outputBlockHeight < 0 ∨ valuationHeight < 0 ∨ valuationHeight < outputBlockHeight then
    nValue
  else
    let blocks : Int := min MAXINTERESTPERIOD (valuationHeight - outputBlockHeight)
    nValue + getRateForAmount blocks nValue

/-- `CTxOut` (value field only) and `CTxOut::GetValueWithInterest` from
`src/src/primitives/transaction.cpp`:
`return GetInterest(nValue, outputBlockHeight, valuationHeight);`. -/
structure CTxOut where
  nValue : Int

def CTxOut.GetValueWithInterest (out : CTxOut)
    (outputBlockHeight : Int) (valuationHeight : Int) : Int :=
  GetInterest out.nValue outputBlockHeight valuationHeight

lemma max_money_eq : MAX_MONEY = (100000000000000000 : Int) := by decide

/-- Exactness of `getRateForAmount` for in-range amounts and periods: no
256-bit wrap, no `GetLow64` truncation, no `uint64` borrow, and the result is
the non-negative mathematical interest `⌊v * R p / R 0⌋ - v`. -/
lemma getRateForAmount_spec (p : Nat) (hp : p ≤ 404420) (v : Int)
    (hv0 : 0 ≤ v) (hvM : v ≤ MAX_MONEY) :
    getRateForAmount (p : Int) v =
        ((v.toNat * rateTable p / rateTable 0 : Nat) : Int) - v ∧
      v.toNat ≤ v.toNat * rateTable p / rateTable 0 ∧
      v.toNat * rateTable p / rateTable 0 < 2 ^ 58 := by
  have hvN : v.toNat ≤ 100000000000000000 := by
    rw [max_money_eq] at hvM
    omega
  have hv57 : v.toNat < 2 ^ 57 := by
    calc v.toNat ≤ 100000000000000000 := hvN
      _ < 2 ^ 57 := by norm_num
  have hRub : rateTable p < 2 ^ 63 := rateTable_ub p hp
  have hRlb : 2 ^ 62 ≤ rateTable p := rateTable_lb p hp
  have hamount : toUInt64Nat v = v.toNat := by
    unfold toUInt64Nat
    rw [Int.emod_eq_of_lt hv0 (by omega)]
  have hper : (p : Int).toNat = p := Int.toNat_natCast p
  have hprod_lt : v.toNat * rateTable p < 2 ^ 120 := by
    calc v.toNat * rateTable p < 2 ^ 57 * 2 ^ 63 :=
          Nat.mul_lt_mul_of_lt_of_le hv57 (Nat.le_of_lt hRub) (by norm_num)
      _ = 2 ^ 120 := by norm_num
  have hprod_mod : v.toNat * rateTable p % 2 ^ 256 = v.toNat * rateTable p :=
    Nat.mod_eq_of_lt (lt_trans hprod_lt (by norm_num))
  have hres_lt : v.toNat * rateTable p / rateTable 0 < 2 ^ 58 := by
    rw [rateTable_zero]
    rw [Nat.div_lt_iff_lt_mul (by norm_num : 0 < (2 : Nat) ^ 62)]
    calc v.toNat * rateTable p < 2 ^ 120 := hprod_lt
      _ = 2 ^ 58 * 2 ^ 62 := by norm_num
  have hres_ge : v.toNat ≤ v.toNat * rateTable p / rateTable 0 := by
    rw [rateTable_zero]
    rw [Nat.le_div_iff_mul_le (by norm_num : 0 < (2 : Nat) ^ 62)]
    exact Nat.mul_le_mul_left _ hRlb
  refine ⟨?_, hres_ge, hres_lt⟩
  unfold getRateForAmount
  rw [hamount, hper]
  dsimp only
  rw [hprod_mod]
  set r : Nat := v.toNat * rateTable p / rateTable 0 with hr
  have hmod64 : r % 2 ^ 64 = r := Nat.mod_eq_of_lt (lt_trans hres_lt (by norm_num))
  rw [hmod64]
  have hsum : r + (2 ^ 64 - v.toNat) = 2 ^ 64 + (r - v.toNat) := by omega
  rw [hsum]
  unfold int64OfNat
  have hdiff_lt : r - v.toNat < 2 ^ 63 := by
    have := hres_lt
    omega
  have hmod : (2 ^ 64 + (r - v.toNat)) % 2 ^ 64 = r - v.toNat := by
    omega
  rw [hmod, if_pos hdiff_lt]
  have hcast : ((r - v.toNat : Nat) : Int) = (r : Int) - (v.toNat : Int) := by
    omega
  rw [hcast, Int.toNat_of_nonneg hv0]

/-- Normal form of `GetInterest` for non-negative heights and in-range values:
the scaled value `⌊v * R periods / R 0⌋` with the elapsed-block count clamped
at `MAXINTERESTPERIOD`. -/
lemma GetInterest_spec (v hc hv : Int) (hv0 : 0 ≤ v) (hvM : v ≤ MAX_MONEY)
    (hc0 : 0 ≤ hc) (hcv : hc ≤ hv) :
    GetInterest v hc hv =
      v + (((v.toNat * rateTable (min (hv - hc).toNat 404420) / rateTable 0 : Nat) : Int) - v) := by
  have hnot : ¬ (hc < 0 ∨ hv < 0 ∨ hv < hc) := by omega
  unfold GetInterest
  rw [if_neg hnot]
  have hM : MAXINTERESTPERIOD = (404420 : Int) := by decide
  have hblocks : min MAXINTERESTPERIOD (hv - hc) = ((min (hv - hc).toNat 404420 : Nat) : Int) := by
    rw [hM]
    omega
  rw [hblocks]
  have hp : min (hv - hc).toNat 404420 ≤ 404420 := Nat.min_le_right _ _
  dsimp only
  rw [(getRateForAmount_spec (min (hv - hc).toNat 404420) hp v hv0 hvM).1]

lemma GetInterest_eq_of_le (v hc hv : Int) (hv0 : 0 ≤ v) (hvM : v ≤ MAX_MONEY)
    (hc0 : 0 ≤ hc) (hh0 : 0 ≤ hv) (h : hv ≤ hc) : GetInterest v hc hv = v := by
  rcases lt_or_eq_of_le h with hlt | heq
  · unfold GetInterest
    rw [if_pos (by omega)]
  · subst heq
    rw [GetInterest_spec v hv hv hv0 hvM hh0 (le_refl _)]
    have h0 : min (hv - hv).toNat 404420 = 0 := by omega
    rw [h0]
    have hcancel : v.toNat * rateTable 0 / rateTable 0 = v.toNat := by
      rw [Nat.mul_div_cancel _ (by rw [rateTable_zero]; norm_num)]
    rw [hcancel, Int.toNat_of_nonneg hv0]
    ring

lemma GetInterest_ge (v hc hv : Int) (hv0 : 0 ≤ v) (hvM : v ≤ MAX_MONEY)
    (hc0 : 0 ≤ hc) (hh0 : 0 ≤ hv) : v ≤ GetInterest v hc hv := by
  rcases lt_or_le hv hc with hlt | hle
  · rw [GetInterest_eq_of_le v hc hv hv0 hvM hc0 hh0 (le_of_lt hlt)]
  · rw [GetInterest_spec v hc hv hv0 hvM hc0 hle]
    have hge := (getRateForAmount_spec (min (hv - hc).toNat 404420)
      (Nat.min_le_right _ _) v hv0 hvM).2.1
    have hcast : (v.toNat : Int) ≤
        ((v.toNat * rateTable (min (hv - hc).toNat 404420) / rateTable 0 : Nat) : Int) :=
      Int.ofNat_le.mpr hge
    rw [Int.toNat_of_nonneg hv0] at hcast
    omega

lemma rateTable_one : rateTable 1 = 2 ^ 62 + 2 ^ 40 := by decide

lemma GetInterest_gt (v hc hv : Int) (hv0 : 0 ≤ v) (hvM : v ≤ MAX_MONEY)
    (hc0 : 0 ≤ hc) (hlt : hc < hv) (hbig : (2 ^ 22 : Int) ≤ v) :
    v < GetInterest v hc hv := by
  rw [GetInterest_spec v hc hv hv0 hvM hc0 (le_of_lt hlt)]
  set p : Nat := min (hv - hc).toNat 404420 with hp
  have hp1 : 1 ≤ p := by omega
  have hp404 : p ≤ 404420 := Nat.min_le_right _ _
  have hR1 : rateTable 1 ≤ rateTable p := rateTable_mono 1 p hp1 hp404
  have hv22 : 2 ^ 22 ≤ v.toNat := by omega
  have hkey : (v.toNat + 1) * 2 ^ 62 ≤ v.toNat * rateTable p := by
    calc (v.toNat + 1) * 2 ^ 62 = v.toNat * 2 ^ 62 + 2 ^ 62 := by ring
      _ ≤ v.toNat * 2 ^ 62 + v.toNat * 2 ^ 40 := by
          have : (2 : Nat) ^ 62 ≤ v.toNat * 2 ^ 40 := by
            calc (2 : Nat) ^ 62 = 2 ^ 22 * 2 ^ 40 := by norm_num
              _ ≤ v.toNat * 2 ^ 40 := Nat.mul_le_mul_right _ hv22
          omega
      _ = v.toNat * (2 ^ 62 + 2 ^ 40) := by ring
      _ = v.toNat * rateTable 1 := by rw [rateTable_one]
      _ ≤ v.toNat * rateTable p := Nat.mul_le_mul_left _ hR1
  have hscaled : v.toNat + 1 ≤ v.toNat * rateTable p / rateTable 0 := by
    rw [rateTable_zero, Nat.le_div_iff_mul_le (by norm_num : 0 < (2 : Nat) ^ 62)]
    exact hkey
  have hcast : ((v.toNat : Int) + 1) ≤
      ((v.toNat * rateTable p / rateTable 0 : Nat) : Int) := by
    exact_mod_cast hscaled
  rw [Int.toNat_of_nonneg hv0] at hcast
  omega

/-- C1: for `0 ≤ v ≤ MAX_MONEY` and `0 ≤ hc ≤ hv`, the effective value
`GetInterest(v, hc, hv)` (used by `CTxOut::GetValueWithInterest`) equals
`v + interest` with `interest = ⌊v * R[p] / R[0]⌋ - v` for
`p = min (hv - hc) MAX_PERIOD`, `MAX_PERIOD = 404420`; in particular the
elapsed-block count is clamped, so valuations at or beyond `hc + MAX_PERIOD`
coincide with the valuation at exactly `hc + MAX_PERIOD`. -/
theorem C1_value_with_interest (v hc hv : Int) (hv0 : 0 ≤ v) (hvM : v ≤ MAX_MONEY)
    (hc0 : 0 ≤ hc) (hcv : hc ≤ hv) :
    CTxOut.GetValueWithInterest ⟨v⟩ hc hv =
        v + (((v.toNat * rateTable (min (hv - hc).toNat 404420) / rateTable 0 : Nat) : Int) - v) ∧
      (hc + 404420 ≤ hv →
        CTxOut.GetValueWithInterest ⟨v⟩ hc hv =
          CTxOut.GetValueWithInterest ⟨v⟩ hc (hc + 404420)) := by
  constructor
  · exact GetInterest_spec v hc hv hv0 hvM hc0 hcv
  · intro hfar
    show GetInterest v hc hv = GetInterest v hc (hc + 404420)
    rw [GetInterest_spec v hc hv hv0 hvM hc0 hcv,
        GetInterest_spec v hc (hc + 404420) hv0 hvM hc0 (by omega)]
    have h1 : min (hv - hc).toNat 404420 = 404420 := by omega
    have h2 : min (hc + 404420 - hc).toNat 404420 = 404420 := by omega
    rw [h1, h2]

/-- Witness for C1 at `v = 100 COIN`, `hc = 0`, `hv = 1`. -/
theorem C1_value_with_interest_witness :
    CTxOut.GetValueWithInterest ⟨10000000000⟩ 0 1 =
        10000000000 + ((((10000000000 : Int).toNat *
            rateTable (min ((1 : Int) - 0).toNat 404420) / rateTable 0 : Nat) : Int) -
          10000000000) ∧
      ((0 : Int) + 404420 ≤ 1 →
        CTxOut.GetValueWithInterest ⟨10000000000⟩ 0 1 =
          CTxOut.GetValueWithInterest ⟨10000000000⟩ 0 ((0 : Int) + 404420)) :=
  C1_value_with_interest 10000000000 0 1 (by decide) (by decide) (by decide) (by decide)

/-- C2 as stated is false: at face value `0` (which lies in `[0, MAX_MONEY]`),
creation height `0` and valuation height `1 > 0`, the effective value still
equals the face value, so "equality iff `h ≤ creationHeight`" fails in the
only-if direction. -/
theorem C2_counterexample :
    (0 : Int) ≤ 0 ∧ (0 : Int) ≤ MAX_MONEY ∧ (0 : Int) ≤ 1 ∧
      GetInterest 0 0 1 = 0 ∧ ¬ ((1 : Int) ≤ (0 : Int)) := by
  decide

/-- C2 amended: the effective value is always `≥` the face value, equality
holds whenever `hv ≤ hc`, and the full "equality iff `hv ≤ hc`" holds for all
face values `v ≥ 2 ^ 22` (for smaller `v`, e.g. `v = 0`, the truncating divide
can produce zero interest even when `hv > hc`). -/
theorem C2_effective_value_ge (v hc hv : Int) (hv0 : 0 ≤ v) (hvM : v ≤ MAX_MONEY)
    (hc0 : 0 ≤ hc) (hh0 : 0 ≤ hv) :
    v ≤ GetInterest v hc hv ∧
      (hv ≤ hc → GetInterest v hc hv = v) ∧
      ((2 ^ 22 : Int) ≤ v → (GetInterest v hc hv = v ↔ hv ≤ hc)) := by
  refine ⟨GetInterest_ge v hc hv hv0 hvM hc0 hh0,
    fun h => GetInterest_eq_of_le v hc hv hv0 hvM hc0 hh0 h, fun hbig => ?_⟩
  constructor
  · intro heq
    by_contra hgt
    push_neg at hgt
    have := GetInterest_gt v hc hv hv0 hvM hc0 hgt hbig
    omega
  · intro h
    exact GetInterest_eq_of_le v hc hv hv0 hvM hc0 hh0 h

/-- Witness for the amended C2 at `v = 2 ^ 22`, `hc = 0`, `hv = 1`. -/
theorem C2_effective_value_ge_witness :
    (4194304 : Int) ≤ GetInterest 4194304 0 1 ∧
      ((1 : Int) ≤ 0 → GetInterest 4194304 0 1 = 4194304) ∧
      ((2 ^ 22 : Int) ≤ 4194304 → (GetInterest 4194304 0 1 = 4194304 ↔ (1 : Int) ≤ 0)) :=
  C2_effective_value_ge 4194304 0 1 (by decide) (by decide) (by decide) (by decide)

/-- C6: when `hv < hc`, or `hc < 0`, or `hv < 0`, `GetInterest` returns the
value unchanged (the defensive early return; no interest, no error). -/
theorem C6_defensive_returns_value (v hc hv : Int)
    (h : hv < hc ∨ hc < 0 ∨ hv < 0) : GetInterest v hc hv = v := by
  unfold GetInterest
  rw [if_pos (by omega)]

/-- Witness for C6 at `v = 7`, `hc = 3`, `hv = 2`. -/
theorem C6_defensive_returns_value_witness :
    ((2 : Int) < 3 ∨ (3 : Int) < 0 ∨ (2 : Int) < 0) ∧ GetInterest 7 3 2 = 7 :=
  ⟨Or.inl (by decide), C6_defensive_returns_value 7 3 2 (Or.inl (by decide))⟩

/-- C7: interest is translation-invariant in height — only the elapsed block
count `hv - hc` matters, not the absolute heights. -/
theorem C7_translation_invariance (v h0 h1 : Int) (hv0 : 0 ≤ v) (hvM : v ≤ MAX_MONEY)
    (h00 : 0 ≤ h0) (h01 : h0 ≤ h1) :
    GetInterest v h0 h1 - v = GetInterest v 0 (h1 - h0) - v := by
  rw [GetInterest_spec v h0 h1 hv0 hvM h00 h01,
      GetInterest_spec v 0 (h1 - h0) hv0 hvM (le_refl 0) (by omega)]
  rw [sub_zero]

/-- Witness for C7 at `v = 100 COIN`, `h0 = 5`, `h1 = 6`. -/
theorem C7_translation_invariance_witness :
    GetInterest 10000000000 5 6 - 10000000000 =
      GetInterest 10000000000 0 ((6 : Int) - 5) - 10000000000 :=
  C7_translation_invariance 10000000000 5 6 (by decide) (by decide) (by decide) (by decide)

/-- C3: the startup table satisfies `R[0] = 1 << 62` and
`R[i] = R[i-1] + (R[i-1] >> 22)` for `1 ≤ i ≤ MAX_PERIOD` in exact unsigned
64-bit arithmetic (the stated sum is below `2 ^ 64`, so the `uint64_t`
addition never wraps), with `ONEDAY = 1108` and
`MAX_PERIOD = ONEDAY * 365 = 404420`. -/
theorem C3_rate_table_recurrence (i : Nat) (h1 : 1 ≤ i) (h2 : i ≤ 404420) :
    rateTable 0 = 1 <<< 62 ∧
      rateTable i = rateTable (i - 1) + rateTable (i - 1) >>> 22 ∧
      rateTable (i - 1) + rateTable (i - 1) >>> 22 < 2 ^ 64 ∧
      ONEDAY = 1108 ∧ MAXINTERESTPERIOD = ONEDAY * 365 ∧
      MAXINTERESTPERIOD = 404420 := by
  have hj : i - 1 + 1 = i := by omega
  have hjlt : i - 1 < 404420 := by omega
  have hstep := rateTable_step (i - 1) hjlt
  rw [hj] at hstep
  have hub : rateTable (i - 1) < 2 ^ 63 := rateTable_ub (i - 1) (by omega)
  have hshift : rateTable (i - 1) >>> 22 = rateTable (i - 1) / 2 ^ 22 :=
    Nat.shiftRight_eq_div_pow _ _
  refine ⟨rfl, hstep, ?_, by decide, by decide, by decide⟩
  have hd : rateTable (i - 1) / 2 ^ 22 ≤ rateTable (i - 1) := Nat.div_le_self _ _
  rw [hshift]
  omega

/-- Witness for C3 at `i = 1`. -/
theorem C3_rate_table_recurrence_witness :
    rateTable 0 = 1 <<< 62 ∧
      rateTable 1 = rateTable (1 - 1) + rateTable (1 - 1) >>> 22 ∧
      rateTable (1 - 1) + rateTable (1 - 1) >>> 22 < 2 ^ 64 ∧
      ONEDAY = 1108 ∧ MAXINTERESTPERIOD = ONEDAY * 365 ∧
      MAXINTERESTPERIOD = 404420 :=
  C3_rate_table_recurrence 1 (by decide) (by decide)

/-- C10 (implicit): every in-range table entry satisfies
`2 ^ 62 ≤ R[i] < 2 ^ 63` (so the `uint64` recurrence never wraps), successive
entries strictly increase, and for amounts in `[0, MAX_MONEY]` and in-range
periods the 256-bit scaled value `⌊v * R[p] / R[0]⌋` is below `2 ^ 64`
(so the `GetLow64` truncation in `getRateForAmount` is lossless) and the
returned interest is an exact non-negative 64-bit amount. -/
theorem C10_table_bounds_and_losslessness (i : Nat) (hi : i ≤ 404420)
    (v : Int) (p : Nat) (hv0 : 0 ≤ v) (hvM : v ≤ MAX_MONEY) (hp : p ≤ 404420) :
    2 ^ 62 ≤ rateTable i ∧ rateTable i < 2 ^ 63 ∧
      (i < 404420 → rateTable i < rateTable (i + 1)) ∧
      v.toNat * rateTable p / rateTable 0 < 2 ^ 64 ∧
      getRateForAmount (p : Int) v =
        ((v.toNat * rateTable p / rateTable 0 : Nat) : Int) - v ∧
      0 ≤ getRateForAmount (p : Int) v := by
  obtain ⟨heq, hge, hlt⟩ := getRateForAmount_spec p hp v hv0 hvM
  refine ⟨rateTable_lb i hi, rateTable_ub i hi,
    fun h => rateTable_lt_succ i h, lt_trans hlt (by norm_num), heq, ?_⟩
  rw [heq]
  have hcast : (v.toNat : Int) ≤
      ((v.toNat * rateTable p / rateTable 0 : Nat) : Int) := Int.ofNat_le.mpr hge
  rw [Int.toNat_of_nonneg hv0] at hcast
  omega

/-- Witness for C10 at `i = 1`, `v = 100 COIN`, `p = 1`. -/
theorem C10_table_bounds_and_losslessness_witness :
    2 ^ 62 ≤ rateTable 1 ∧ rateTable 1 < 2 ^ 63 ∧
      ((1 : Nat) < 404420 → rateTable 1 < rateTable (1 + 1)) ∧
      (10000000000 : Int).toNat * rateTable 1 / rateTable 0 < 2 ^ 64 ∧
      getRateForAmount ((1 : Nat) : Int) 10000000000 =
        (((10000000000 : Int).toNat * rateTable 1 / rateTable 0 : Nat) : Int) -
          10000000000 ∧
      0 ≤ getRateForAmount ((1 : Nat) : Int) 10000000000 :=
  C10_table_bounds_and_losslessness 1 (by decide) 10000000000 1
    (by decide) (by decide) (by decide)

/-- Modelled from the spec: `arith_uint256::SetCompact` is not under src/
(only its caller `GetWorkForDifficultyBits` is).  The spec describes the
compact `bits` encoding as packing "a 256-bit integer as a 1-byte exponent and
a 3-byte signed mantissa", with decoding possibly flagging negative or
overflowing targets; this is the standard Bitcoin decoder: exponent
`nBits >> 24`, mantissa `nBits & 0x007fffff`, sign bit `0x00800000`, the
mantissa placed at byte offset `exponent - 3` (shifts performed in the
wrapping 256-bit type).  Returns `(target, fNegative, fOverflow)`. -/
def setCompact (nCompact : Nat) : Nat × Bool × Bool :=
  let nSize := nCompact >>> 24
  let nWord := nCompact &&& 0x007fffff
  let target : Nat :=
    if nSize ≤ 3 then nWord >>> (8 * (3 - nSize))
    else (nWord <<< (8 * (nSize - 3))) % 2 ^ 256
  let fNegative : Bool := decide (nWord ≠ 0 ∧ nCompact &&& 0x00800000 ≠ 0)
  let fOverflow : Bool := decide (nWord ≠ 0 ∧
    (nSize > 34 ∨ (nWord > 0xff ∧ nSize > 33) ∨ (nWord > 0xffff ∧ nSize > 32)))
  (target, fNegative, fOverflow)

/-- `GetWorkForDifficultyBits` from `src/src/primitives/block.cpp`:

    bnTarget.SetCompact(nBits, &fNegative, &fOverflow);
    if (fNegative || fOverflow || bnTarget == 0)
        return 0;
    return (~bnTarget / (bnTarget + 1)) + 1;

On the 256-bit type `~bnTarget = 2 ^ 256 - 1 - bnTarget`; the outer `% 2 ^ 256`
models the wrapping `+ 1` (the bound proofs show it never fires, and no
decodable target equals `2 ^ 256 - 1`, so `bnTarget + 1` cannot wrap). -/
def GetWorkForDifficultyBits (nBits : Nat) : Nat :=
  if (setCompact nBits).2.1 = true ∨ (setCompact nBits).2.2 = true ∨
      (setCompact nBits).1 = 0 then 0
  else
    ((2 ^ 256 - 1 - (setCompact nBits).1) / ((setCompact nBits).1 + 1) + 1) % 2 ^ 256

lemma setCompact_fst_lt (nBits : Nat) : (setCompact nBits).1 < 2 ^ 256 := by
  unfold setCompact
  dsimp only
  split
  · calc (nBits &&& 0x007fffff) >>> (8 * (3 - nBits >>> 24))
        ≤ nBits &&& 0x007fffff := by
          rw [Nat.shiftRight_eq_div_pow]
          exact Nat.div_le_self _ _
      _ ≤ 0x007fffff := Nat.and_le_right
      _ < 2 ^ 256 := by norm_num
  · exact Nat.mod_lt _ (by norm_num)

/-- C8: `GetWorkForDifficultyBits` returns `0` exactly when the compact
decoding flags the target negative or overflowing or the decoded target is
zero; otherwise it returns `(~target) / (target + 1) + 1`, which equals
`⌊2 ^ 256 / (target + 1)⌋`. -/
theorem C8_work_for_difficulty_bits (nBits : Nat) (h32 : nBits < 2 ^ 32) :
    ((setCompact nBits).2.1 = true ∨ (setCompact nBits).2.2 = true ∨
        (setCompact nBits).1 = 0 →
      GetWorkForDifficultyBits nBits = 0) ∧
    ((setCompact nBits).2.1 = false → (setCompact nBits).2.2 = false →
        (setCompact nBits).1 ≠ 0 →
      GetWorkForDifficultyBits nBits =
          (2 ^ 256 - 1 - (setCompact nBits).1) / ((setCompact nBits).1 + 1) + 1 ∧
        GetWorkForDifficultyBits nBits = 2 ^ 256 / ((setCompact nBits).1 + 1)) := by
  constructor
  · intro hcond
    unfold GetWorkForDifficultyBits
    rw [if_pos hcond]
  · intro h1 h2 h3
    have hne : ¬ ((setCompact nBits).2.1 = true ∨ (setCompact nBits).2.2 = true ∨
        (setCompact nBits).1 = 0) := by
      simp [h1, h2, h3]
    set t : Nat := (setCompact nBits).1 with ht
    have htpos : 1 ≤ t := Nat.pos_of_ne_zero h3
    have htlt : t < 2 ^ 256 := setCompact_fst_lt nBits
    have hq : (2 ^ 256 - 1 - t) / (t + 1) ≤ (2 ^ 256 - 2) / 2 :=
      Nat.div_le_div (by omega) (by omega) (by omega)
    have hsmall : (2 ^ 256 - 1 - t) / (t + 1) + 1 < 2 ^ 256 := by
      have h2' : (2 ^ 256 - 2 : Nat) / 2 < 2 ^ 256 - 1 := by norm_num
      omega
    have hval : GetWorkForDifficultyBits nBits =
        (2 ^ 256 - 1 - t) / (t + 1) + 1 := by
      unfold GetWorkForDifficultyBits
      rw [if_neg hne, ← ht]
      exact Nat.mod_eq_of_lt hsmall
    refine ⟨hval, ?_⟩
    rw [hval]
    have hsplit : 2 ^ 256 - 1 - t + (t + 1) = 2 ^ 256 := by omega
    calc (2 ^ 256 - 1 - t) / (t + 1) + 1
        = (2 ^ 256 - 1 - t + (t + 1)) / (t + 1) :=
          (Nat.add_div_right _ (by omega)).symm
      _ = 2 ^ 256 / (t + 1) := by rw [hsplit]

/-- Witness for C8 at the classic compact target `0x1d00ffff`. -/
theorem C8_work_for_difficulty_bits_witness :
    ((setCompact 0x1d00ffff).2.1 = true ∨ (setCompact 0x1d00ffff).2.2 = true ∨
        (setCompact 0x1d00ffff).1 = 0 →
      GetWorkForDifficultyBits 0x1d00ffff = 0) ∧
    ((setCompact 0x1d00ffff).2.1 = false → (setCompact 0x1d00ffff).2.2 = false →
        (setCompact 0x1d00ffff).1 ≠ 0 →
      GetWorkForDifficultyBits 0x1d00ffff =
          (2 ^ 256 - 1 - (setCompact 0x1d00ffff).1) / ((setCompact 0x1d00ffff).1 + 1) + 1 ∧
        GetWorkForDifficultyBits 0x1d00ffff = 2 ^ 256 / ((setCompact 0x1d00ffff).1 + 1)) :=
  C8_work_for_difficulty_bits 0x1d00ffff (by decide)

/-- The block header fields from `src/src/primitives/block.h` (the two
pattern-search fields `nStartLocation` / `nFinalCalculation` are commented out
in the source and do not exist). -/
structure CBlockHeader where
  nVersion : Int
  hashPrevBlock : Nat
  hashMerkleRoot : Nat
  nTime : Nat
  nBits : Nat
  nNonce : Nat

/-- The thread-rounding loop at the top of `CBlockHeader::FindBestPatternHash`:

    int newThreadNumber = 1;
    while(newThreadNumber < nThreads){ newThreadNumber*=2; }

modelled with explicit fuel (`nThreads.toNat` doublings always suffice to
leave the loop, see `threadLoop_ge`). -/
def threadLoop : Nat → Int → Int → Int
  | 0, _, n => n
  | fuel + 1, t, n => if n < t then threadLoop fuel t (2 * n) else n

def roundThreads (nThreads : Int) : Int := threadLoop nThreads.toNat nThreads 1

lemma threadLoop_pow (fuel : Nat) : ∀ t n : Int, ∃ j : Nat,
    threadLoop fuel t n = n * 2 ^ j := by
  induction fuel with
  | zero => intro t n; exact ⟨0, by simp [threadLoop]⟩
  | succ f ih =>
    intro t n
    simp only [threadLoop]
    split
    · obtain ⟨j, hj⟩ := ih t (2 * n)
      exact ⟨j + 1, by rw [hj]; ring⟩
    · exact ⟨0, by ring⟩

lemma threadLoop_ge (fuel : Nat) : ∀ t n : Int, 1 ≤ n → t ≤ n * 2 ^ fuel →
    t ≤ threadLoop fuel t n := by
  induction fuel with
  | zero => intro t n h1 h2; simpa [threadLoop] using h2
  | succ f ih =>
    intro t n h1 h2
    simp only [threadLoop]
    split
    · apply ih t (2 * n) (by omega)
      calc t ≤ n * 2 ^ (f + 1) := h2
        _ = 2 * n * 2 ^ f := by ring
    · omega

lemma threadLoop_min (fuel : Nat) : ∀ t n : Int,
    threadLoop fuel t n = n ∨ threadLoop fuel t n < 2 * t := by
  induction fuel with
  | zero => intro t n; left; simp [threadLoop]
  | succ f ih =>
    intro t n
    simp only [threadLoop]
    split
    · rcases ih t (2 * n) with h | h
      · right; rw [h]; omega
      · right; exact h
    · left; rfl

/-- Modelled from the spec: the hash primitive over the 80 header bytes (the
`Hash` call, SHA-256d, which is also what `GetMidHash` computes) and
`patternsearch::pattern_search` are not under src/; they enter the embedding
as the parameters `hash` and `search`, with the scratchpad buffer abstracted
by a type `σ`.  This is `CBlockHeader::FindBestPatternHash` from
`src/src/primitives/block.cpp`: the `collisions` out-parameter is modelled by
threading its incoming value and returning the pair
`(collisions, returned hash)`; inside the candidate loop the source computes
`fullHash = Hash(BEGIN(nVersion), END(nNonce))` — the assignments of
`nStartLocation` / `nFinalCalculation` are commented out, so the hashed bytes
do not depend on the candidate pair. -/
def FindBestPatternHash {σ : Type}
    (hash : CBlockHeader → Nat)
    (search : Nat → σ → Int → List (Nat × Nat))
    (header : CBlockHeader) (collisions : Int) (scratchpad : σ)
    (nThreads : Int) : Int × Nat :=
  let smallestHashSoFar : Nat := 2 ^ 256 - 1
  if nThreads = 0 then (collisions, smallestHashSoFar)
  else
    let midHash := hash header
    let results := search midHash scratchpad (roundThreads nThreads)
    let collisionsOut : Int := results.length
    let best := results.foldl
      (fun smallest _ => if hash header < smallest then hash header else smallest)
      smallestHashSoFar
    (collisionsOut, best)

lemma foldl_min_const {α : Type} [DecidableEq α] (h : Nat) (l : List α) (acc : Nat) :
    l.foldl (fun smallest _ => if h < smallest then h else smallest) acc =
      if l = [] then acc else min h acc := by
  induction l generalizing acc with
  | nil => simp
  | cons x xs ih =>
    rw [List.foldl_cons, ih]
    have hstep : (if h < acc then h else acc) = min h acc := by
      rcases le_or_lt acc h with hle | hlt
      · rw [if_neg (not_lt.mpr hle), min_eq_right hle]
      · rw [if_pos hlt, min_eq_left (le_of_lt hlt)]
    rw [hstep, if_neg (List.cons_ne_nil x xs)]
    by_cases hxs : xs = []
    · rw [if_pos hxs]
    · rw [if_neg hxs, ← min_assoc, min_self]

/-- C9 as stated is false on the candidate-selection clause: instantiating the
embedding with a mid-hash function returning `5` and an outer (Blake3) hash
function returning `7` on the same header, with one candidate pair, the
function returns `5` — the mid-hash value — whereas the claim ("returns the
minimum outer hash over those candidate pairs") predicts `7`. -/
theorem C9_counterexample :
    (FindBestPatternHash (σ := Unit) (fun _ => 5) (fun _ _ _ => [(0, 0)])
        ⟨0, 0, 0, 0, 0, 0⟩ 0 () 1).2 = 5 ∧
      ((fun (_ : CBlockHeader) => (7 : Nat)) ⟨0, 0, 0, 0, 0, 0⟩ ≠ 5) := by
  constructor
  · decide
  · decide

/-- C9 amended: with `nThreads = 0` the function returns the sentinel
`0xFF…FF` leaving the collision count untouched; otherwise it rounds the
worker count up to the least power of two that is `≥ nThreads`, runs the
search seeded with the mid-hash of the header, sets collisions to the number
of candidate pairs returned, and returns the sentinel when there are no
candidates and otherwise `min sentinel (Hash header)` — the (candidate-
independent) SHA-256d mid-hash value, not the Blake3 outer hash. -/
theorem C9_find_best_pattern_hash (σ : Type) (hash : CBlockHeader → Nat)
    (search : Nat → σ → Int → List (Nat × Nat)) (header : CBlockHeader)
    (collisions : Int) (scratchpad : σ) (nThreads : Int) :
    (nThreads = 0 →
      FindBestPatternHash hash search header collisions scratchpad nThreads =
        (collisions, 2 ^ 256 - 1)) ∧
    (nThreads ≠ 0 →
      FindBestPatternHash hash search header collisions scratchpad nThreads =
        (((search (hash header) scratchpad (roundThreads nThreads)).length : Int),
          if search (hash header) scratchpad (roundThreads nThreads) = [] then
            2 ^ 256 - 1
          else min (hash header) (2 ^ 256 - 1))) ∧
    (1 ≤ nThreads → ∃ k : Nat, roundThreads nThreads = 2 ^ k ∧
      nThreads ≤ 2 ^ k ∧ ∀ j : Nat, nThreads ≤ 2 ^ j → (2 : Int) ^ k ≤ 2 ^ j) := by
  refine ⟨fun h0 => ?_, fun hne => ?_, fun h1 => ?_⟩
  · unfold FindBestPatternHash
    rw [if_pos h0]
  · unfold FindBestPatternHash
    rw [if_neg hne]
    dsimp only
    rw [foldl_min_const]
  · obtain ⟨j, hj⟩ := threadLoop_pow nThreads.toNat nThreads 1
    rw [one_mul] at hj
    have hround : roundThreads nThreads = 2 ^ j := hj
    refine ⟨j, hround, ?_, ?_⟩
    · rw [← hround]
      apply threadLoop_ge nThreads.toNat nThreads 1 (by omega)
      have hm : nThreads = (nThreads.toNat : Int) := (Int.toNat_of_nonneg (by omega)).symm
      have hlt : nThreads.toNat < 2 ^ nThreads.toNat := Nat.lt_two_pow _
      have hcast : ((nThreads.toNat : Nat) : Int) < ((2 ^ nThreads.toNat : Nat) : Int) :=
        Int.ofNat_lt.mpr hlt
      push_cast at hcast
      omega
    · intro i hi
      rcases threadLoop_min nThreads.toNat nThreads 1 with hone | hlt2

      · have h2j : (2 : Int) ^ j = 1 := by
          rw [← hround]
          exact hone
        rw [h2j]
        have : (0 : Int) < 2 ^ i := by positivity
        omega
      · rw [hj] at hlt2
        have hij : j ≤ i := by
          by_contra hgt
          push_neg at hgt
          have hle : (2 : Int) ^ (i + 1) ≤ 2 ^ j :=
            pow_le_pow_right (by norm_num) hgt
          have : (2 : Int) ^ (i + 1) = 2 * 2 ^ i := by ring
          have h2t : (2 : Int) ^ j < 2 * 2 ^ i := by omega
          omega
        exact pow_le_pow_right (by norm_num) hij

/-- Witness for the amended C9: one candidate pair, mid-hash value `3`,
`nThreads = 3` (rounded up to `4`). -/
theorem C9_find_best_pattern_hash_witness :
    ((3 : Int) = 0 →
      FindBestPatternHash (σ := Unit) (fun _ => 3) (fun _ _ _ => [(1, 2)])
        ⟨0, 0, 0, 0, 0, 0⟩ 0 () 3 = (0, 2 ^ 256 - 1)) ∧
    ((3 : Int) ≠ 0 →
      FindBestPatternHash (σ := Unit) (fun _ => 3) (fun _ _ _ => [(1, 2)])
        ⟨0, 0, 0, 0, 0, 0⟩ 0 () 3 =
        ((([((1 : Nat), (2 : Nat))] : List (Nat × Nat)).length : Int),
          if ([((1 : Nat), (2 : Nat))] : List (Nat × Nat)) = [] then 2 ^ 256 - 1
          else min 3 (2 ^ 256 - 1))) ∧
    (1 ≤ (3 : Int) → ∃ k : Nat, roundThreads 3 = 2 ^ k ∧ (3 : Int) ≤ 2 ^ k ∧
      ∀ j : Nat, (3 : Int) ≤ 2 ^ j → (2 : Int) ^ k ≤ 2 ^ j) :=
  C9_find_best_pattern_hash Unit (fun _ => 3) (fun _ _ _ => [(1, 2)])
    ⟨0, 0, 0, 0, 0, 0⟩ 0 () 3

end Membercoin
